import Mathlib

/-!
Verification of `dyna_gym/envs/ns_frozen_lake.py` (non-stationary FrozenLake).

The Python source is shallowly embedded below:

* grid cells become the inductive type `Cell`, the environment construction
  parameters become the structure `Env` (its fields `nrow`, `ncol`,
  `is_slippery`, `desc` mirror the attributes set in `__init__`, and the
  constants `nS`, `nA`, `nT`, `L_p`, `timestep` are the values assigned on
  lines 105-110 of the source);
* Python integers are `ℤ`; probabilities (numpy float entries) are modelled
  exactly as `ℚ`;
* fallible code (attribute access, unbound names, `exit()`, list `pop` on an
  empty list, asserts, out-of-range indexing) returns `Except PyErr`;
* the module `dyna_gym.utils.distribution` is imported by the source
  (line 3) but its code is not part of this tree, so its two functions are
  modelled from the specification as an abstract `DistributionModel`
  constrained by `SimplexSpec`.
-/

/-- A grid cell letter: Start, Frozen, Hole or Goal. -/
inductive Cell where
  | S : Cell
  | F : Cell
  | H : Cell
  | G : Cell
deriving DecidableEq

/-- Python runtime errors that the embedded code can raise. -/
inductive PyErr where
  | nameError (missing : String)
  | attributeError (objAttr : String × String)
  | indexError
  | typeError
  | assertionError
  | systemExit
deriving DecidableEq

/-- The environment data fixed by `NSFrozenLakeEnv.__init__`: grid shape,
slipperiness flag and the cell description `self.desc`. -/
structure Env where
  nrow : ℕ
  ncol : ℕ
  is_slippery : Bool
  desc : List (List Cell)

/-- `self.nS = nrow * ncol` (source line 105). -/
def Env.nS (e : Env) : ℕ := e.nrow * e.ncol

/-- `self.nA = 4` (source line 106). -/
def Env.nA (_e : Env) : ℕ := 4

/-- `self.nT = 11` (source line 107). -/
def Env.nT (_e : Env) : ℕ := 11

/-- `self.timestep = 1` (source line 109). -/
def Env.timestep (_e : Env) : ℚ := 1

/-- `self.L_p = 0.1` (source line 110). -/
def Env.L_p (_e : Env) : ℚ := 1 / 10

/-- `inc(self, row, col, a)` (source lines 135-147): one step in direction
`a`, clamped at the borders; any `a` outside 0..3 leaves the position
unchanged (the `if`/`elif` chain has no `else`). -/
def Env.inc (e : Env) (row col a : ℤ) : ℤ × ℤ :=
  if a = 0 then (row, max (col - 1) 0)
  else if a = 1 then (min (row + 1) ((e.nrow : ℤ) - 1), col)
  else if a = 2 then (row, min (col + 1) ((e.ncol : ℤ) - 1))
  else if a = 3 then (max (row - 1) 0, col)
  else (row, col)

/-- `to_s(self, row, col) = row * self.ncol + col` (source lines 149-153). -/
def Env.to_s (e : Env) (row col : ℤ) : ℤ := row * (e.ncol : ℤ) + col

/-- `to_m(self, s)` (source lines 155-161): `row = int(s / self.ncol)`,
`col = s - row * self.ncol`.  For the nonnegative arguments the source
passes, Python's `int(s / ncol)` agrees with Euclidean division `/` on `ℤ`. -/
def Env.to_m (e : Env) (s : ℤ) : ℤ × ℤ :=
  (s / (e.ncol : ℤ), s - s / (e.ncol : ℤ) * (e.ncol : ℤ))

/-- The state index targeted by applying `inc` with action `b` from the
position of state index `s` (the index the source writes into `rs`). -/
def Env.moveTarget (e : Env) (s b : ℤ) : ℕ :=
  let rc := e.to_m s
  let nrc := e.inc rc.1 rc.2 b
  (e.to_s nrc.1 nrc.2).toNat

/-- Body of `reachable_states(self, s, a)` (source lines 185-195) applied to
the state index (line 187 reads the index off the argument via `s.index`;
that attribute access is modelled separately by `Env.reachable_states_meth`).
`rs` is a 0/1 vector of length `nS`; slippery mode marks the moves of
`(a-1)%4, a, (a+1)%4`, non-slippery mode marks the move of `a` only. -/
def Env.reachable_states (e : Env) (s a : ℤ) : List ℕ :=
  let rs := List.replicate e.nS 0
  let rc := e.to_m s
  if e.is_slippery then
    [(a - 1) % 4, a, (a + 1) % 4].foldl
      (fun l b =>
        let nrc := e.inc rc.1 rc.2 b
        l.set (e.to_s nrc.1 nrc.2).toNat 1)
      rs
  else
    let nrc := e.inc rc.1 rc.2 a
    rs.set (e.to_s nrc.1 nrc.2).toNat 1

/-- A Python value that may be passed where the source expects a state:
either a plain `int` (as `generate_transition_matrix` passes on line 203) or
a `State(index, time)` object (source lines 33-39). -/
inductive PyVal where
  | int : ℤ → PyVal
  | state : ℤ → ℤ → PyVal

/-- Attribute access `s.index`: a `State` object has the attribute, a Python
`int` does not and raises `AttributeError`. -/
def PyVal.attr_index : PyVal → Except PyErr ℤ
  | .int _ => .error (PyErr.attributeError (("int", "index")))
  | .state idx _ => .ok idx

/-- `reachable_states(self, s, a)` as actually written (source lines
185-195): line 187 evaluates `s.index` before anything observable, then the
body marks the reachable vector. -/
def Env.reachable_states_meth (e : Env) (s : PyVal) (a : ℤ) : Except PyErr (List ℕ) :=
  match PyVal.attr_index s with
  | .error err => .error err
  | .ok idx => .ok (e.reachable_states idx a)

/-- Modelled from the spec: the module `dyna_gym.utils.distribution`
(imported on source line 3) is not part of this tree.  Its two functions
`random_tabular` and `random_constrained` draw random simplex points, so
they are modelled as an abstract pair of functions; the contract the spec
gives them is `SimplexSpec` below. -/
structure DistributionModel where
  random_tabular : ℕ → List ℚ
  random_constrained : List ℚ → ℚ → List ℚ

/-- The sum of the absolute componentwise differences of two vectors (the
L1 / total-variation distance the spec fixes for the Lipschitz bound). -/
def l1dist (v w : List ℚ) : ℚ :=
  (List.zipWith (fun a b => |a - b|) v w).sum

/-- Modelled from the spec (section 4.3): `random_tabular n` is a point of
the probability simplex of dimension `n`, and `random_constrained w δ`
(for a simplex point `w` and `δ ≥ 0`) is a simplex point of the same
dimension within L1 distance `δ` of `w`. -/
def SimplexSpec (D : DistributionModel) : Prop :=
  (∀ n : ℕ, 1 ≤ n →
    (D.random_tabular n).length = n ∧
    (∀ x ∈ D.random_tabular n, 0 ≤ x) ∧
    (D.random_tabular n).sum = 1) ∧
  (∀ (w : List ℚ) (δ : ℚ), 0 ≤ δ → (∀ x ∈ w, 0 ≤ x) → w.sum = 1 →
    (D.random_constrained w δ).length = w.length ∧
    (∀ x ∈ D.random_constrained w δ, 0 ≤ x) ∧
    (D.random_constrained w δ).sum = 1 ∧
    l1dist w (D.random_constrained w δ) ≤ δ)

/-- The comprehension `[0 if x == 0 else wcopy.pop() for x in rs]` of source
lines 209 and 214: walk `rs` left to right; each nonzero entry consumes the
LAST remaining element of the weight list (`list.pop()` pops from the end),
raising `IndexError` when the list is exhausted. -/
def scatterRow : List ℕ → List ℚ → Except PyErr (List ℚ)
  | [], _ => .ok []
  | x :: xs, w =>
    if x = 0 then (scatterRow xs w).map (fun row => (0 : ℚ) :: row)
    else
      match w.getLast? with
      | none => .error PyErr.indexError
      | some v => (scatterRow xs w.dropLast).map (fun row => v :: row)

/-- Total companion of `scatterRow`, used to state its result. -/
def scatterFn : List ℕ → List ℚ → List ℚ
  | [], _ => []
  | x :: xs, w =>
    if x = 0 then (0 : ℚ) :: scatterFn xs w
    else w.getLastD 0 :: scatterFn xs w.dropLast

/-- The sequence of weight vectors the generator draws for one
(position, action) pair (source lines 207 and 212): `w` at time 0 is
`distribution.random_tabular(nrs)` and each later `w` is
`distribution.random_constrained(w, L_p * timestep)`. -/
def wseq (D : DistributionModel) (n : ℕ) (δ : ℚ) : ℕ → List ℚ
  | 0 => D.random_tabular n
  | t + 1 => D.random_constrained (wseq D n δ t) δ

/-- The slot of the weight vector that position `k` of the scattered row
reads.  It depends only on the reachable vector `rs`, not on the timestep:
`rs.sum` ones are filled from the END of the weight list, so the k-th
marked position (counting `(rs.take k).sum` earlier marks) reads component
`rs.sum - 1 - (rs.take k).sum`. -/
def componentIndex (rs : List ℕ) (k : ℕ) : ℕ :=
  rs.sum - 1 - (rs.take k).sum

/-- One row `T[p, a, t, :]` of the transition kernel as built by the loop
body of `generate_transition_matrix` (source lines 203, 206-214) with the
debug `print`/`exit()` of lines 204-205 omitted (see
`generate_transition_matrix_lit` for the literal loop, which dies on its
first iteration) and the reachable-state computation applied to the integer
index the loop passes.  `nrs = np.sum(rs)` is `rs.sum`. -/
def Env.kernelRow (e : Env) (D : DistributionModel) (p a : ℤ) (t : ℕ) :
    Except PyErr (List ℚ) :=
  let rs := e.reachable_states p a
  scatterRow rs (wseq D rs.sum (e.L_p * e.timestep) t)

/-- The body of the generation loop as literally written (source lines
203-205): compute `rs = self.reachable_states(i, j)` — which evaluates
`i.index` on a Python `int` — then print `rs` and call `exit()`.  Lines
206-214 can never run (line 205 raises `SystemExit` unconditionally, and in
fact line 203 raises `AttributeError` first); they are modelled by
`Env.kernelRow`. -/
def gen_step (e : Env) (i j : ℕ) (log : List (List ℕ)) :
    List (List ℕ) × Except PyErr Unit :=
  match e.reachable_states_meth (.int (i : ℤ)) (j : ℤ) with
  | .error err => (log, .error err)
  | .ok rs => (log ++ [rs], .error PyErr.systemExit)

/-- The double loop `for i in range(self.nS): for j in range(self.nA):` of
`generate_transition_matrix` (source lines 200-201), threading the printed
output; a body that raises ends the whole call with that error. -/
def genLoop (e : Env) : List (ℕ × ℕ) → List (List ℕ) → List (List ℕ) × Except PyErr Unit
  | [], log => (log, .ok ())
  | (i, j) :: rest, log =>
    match gen_step e i j log with
    | (log2, .error err) => (log2, .error err)
    | (log2, .ok _) => genLoop e rest log2

/-- `generate_transition_matrix(self)` (source lines 197-215) as shipped:
the pair of everything printed and the loop's outcome (`.ok` would mean the
loop finished and line 215 returned the kernel). -/
def generate_transition_matrix_lit (e : Env) : List (List ℕ) × Except PyErr Unit :=
  genLoop e ((List.range e.nS).flatMap (fun i => (List.range e.nA).map (fun j => (i, j)))) []

/-- `categorical_sample(prob_n, np_random)` (source lines 58-65) with the
uniform draw `u` made explicit: index of the first cumulative sum exceeding
`u`, or 0 when none does (`np.argmax` of an all-False vector). -/
def cumsum : ℚ → List ℚ → List ℚ
  | _, [] => []
  | acc, x :: xs => (acc + x) :: cumsum (acc + x) xs

/-- See `cumsum`; this is the sampling function itself. -/
def categorical_sample (prob_n : List ℚ) (u : ℚ) : ℕ :=
  ((cumsum 0 prob_n).findIdx? (fun c => decide (u < c))).getD 0

/-- The name `get_position` looked up by source lines 218 and 225-226. -/
def gp_name : String := "get_position"

/-- What a module-level global may be bound to; only presence and shape
matter for the claims, not behaviour. -/
inductive PyObj where
  | module : PyObj
  | callable : PyObj
  | intval : ℤ → PyObj
  | mapsval : PyObj

/-- The names bound at module level in `ns_frozen_lake.py`: the imports of
lines 1-7 and the top-level definitions of lines 9-31, 33, 41, 58 and 67.
No binding for `get_position` exists (and `get_position` is not a Python
builtin either). -/
def moduleGlobals : List (String × PyObj) :=
  [("np", PyObj.module), ("sys", PyObj.module), ("distribution", PyObj.module),
   ("randint", PyObj.callable), ("StringIO", PyObj.callable), ("b", PyObj.callable),
   ("Env", PyObj.callable), ("spaces", PyObj.module), ("utils", PyObj.module),
   ("discrete", PyObj.module),
   ("LEFT", PyObj.intval 0), ("DOWN", PyObj.intval 1),
   ("RIGHT", PyObj.intval 2), ("UP", PyObj.intval 3),
   ("MAPS", PyObj.mapsval), ("State", PyObj.callable),
   ("random_map", PyObj.callable), ("categorical_sample", PyObj.callable),
   ("NSFrozenLakeEnv", PyObj.callable)]

/-- Evaluating a bare name inside a function body: looked up among the
module globals, raising `NameError` when absent. -/
def lookupGlobal (n : String) : Except PyErr PyObj :=
  match moduleGlobals.lookup n with
  | some v => .ok v
  | none => .error (PyErr.nameError n)

/-- Calling a value bound to a name that does not exist in the module: no
faithful semantics is possible and none is needed — every call site first
fails the `lookupGlobal` step, so this is unreachable. -/
def applyUnknown (_f : PyObj) (_x : ℤ) : Except PyErr ℤ :=
  .error PyErr.typeError

/-- A Python `assert`: `AssertionError` when the condition fails. -/
def pyAssert (c : Prop) [Decidable c] : Except PyErr Unit :=
  if c then .ok () else .error PyErr.assertionError

/-- `transition_probability_distribution(self, s, t, a)` (source lines
217-222).  Line 218 evaluates the bare name `get_position`, which is not
among `moduleGlobals`, so every call raises `NameError` before the asserts
of lines 219-221 and the kernel indexing of line 222 run.  The kernel
attribute `self.T` is passed explicitly as `T`. -/
def Env.transition_probability_distribution (e : Env) (T : ℤ → ℤ → ℤ → List ℚ)
    (s t a : ℤ) : Except PyErr (List ℚ) := do
  let gp ← lookupGlobal gp_name
  let p ← applyUnknown gp s
  let _ ← pyAssert (p < (e.nS : ℤ))
  let _ ← pyAssert (t < (e.nT : ℤ))
  let _ ← pyAssert (a < (e.nA : ℤ))
  return T p a t

/-- `transition_probability(self, s_p, s, t, a)` (source lines 224-231):
same shape, two `get_position` calls (lines 225-226) before the asserts of
lines 227-230 and the indexing of line 231. -/
def Env.transition_probability (e : Env) (T : ℤ → ℤ → ℤ → List ℚ)
    (s_p s t a : ℤ) : Except PyErr ℚ := do
  let gp ← lookupGlobal gp_name
  let p ← applyUnknown gp s
  let gp2 ← lookupGlobal gp_name
  let p_p ← applyUnknown gp2 s_p
  let _ ← pyAssert (p_p < (e.nS : ℤ))
  let _ ← pyAssert (p < (e.nS : ℤ))
  let _ ← pyAssert (t < (e.nT : ℤ))
  let _ ← pyAssert (a < (e.nA : ℤ))
  return (T p a t).getD p_p.toNat 0

/-- `self.desc[row, col]`: bounds-checked cell lookup (numpy's
negative-index wrap-around is not modelled; no reachable call site uses it). -/
def Env.cellAt (e : Env) (row col : ℤ) : Except PyErr Cell :=
  if 0 ≤ row ∧ row < (e.nrow : ℤ) ∧ 0 ≤ col ∧ col < (e.ncol : ℤ) then
    .ok ((e.desc.getD row.toNat []).getD col.toNat Cell.F)
  else .error PyErr.indexError

/-- `transition(self, s, a, is_model_dynamic)` (source lines 250-269) with
the state as the pair `(p, t)` the body unpacks on line 257 and the uniform
draw `u` of the sampler made explicit.  Line 258 calls
`transition_probability_distribution`, so every call raises `NameError`
before the sampling, reward and termination logic of lines 259-269. -/
def Env.transition (e : Env) (T : ℤ → ℤ → ℤ → List ℚ) (u : ℚ)
    (s : ℤ × ℤ) (a : ℤ) (is_model_dynamic : Bool) :
    Except PyErr ((ℤ × ℤ) × ℚ × Bool) := do
  let p := s.1
  let t := s.2
  let d ← e.transition_probability_distribution T p t a
  let p_p := categorical_sample d u
  let rc := e.to_m (p_p : ℤ)
  let newletter ← e.cellAt rc.1 rc.2
  let done : Bool := newletter = Cell.G ∨ newletter = Cell.H
  let r : ℚ := if newletter = Cell.G then 1 else 0
  let done : Bool := if t ≥ (e.nT : ℤ) - 1 then true else done
  let t2 : ℤ := if is_model_dynamic then t + 1 else t
  return (((p_p : ℤ), t2), r, done)

/-- `reward(self, s, t, a)` (source lines 271-278): the Goal-indicator dot
product with the kernel row; line 273 calls
`transition_probability_distribution`, so every call raises `NameError`. -/
def Env.reward (e : Env) (T : ℤ → ℤ → ℤ → List ℚ) (s t a : ℤ) :
    Except PyErr ℚ := do
  let d ← e.transition_probability_distribution T s t a
  let terms ← (List.range d.length).mapM (fun (i : ℕ) => do
    let rc := e.to_m (i : ℤ)
    let c ← e.cellAt rc.1 rc.2
    return (if c = Cell.G then (1 : ℚ) else 0) * d.getD i 0)
  return terms.sum

/-- The 4x4 preset map of source lines 15-20 with `is_slippery=False`. -/
def env4 : Env :=
  { nrow := 4, ncol := 4, is_slippery := false,
    desc := [[Cell.S, Cell.F, Cell.F, Cell.F],
             [Cell.F, Cell.H, Cell.F, Cell.H],
             [Cell.F, Cell.F, Cell.F, Cell.H],
             [Cell.H, Cell.F, Cell.F, Cell.G]] }

/-- The same map with `is_slippery=True` (the constructor's default). -/
def env4s : Env := { env4 with is_slippery := true }

/-- A trivial kernel value used to instantiate the dead `self.T` parameter. -/
def T0 : ℤ → ℤ → ℤ → List ℚ := fun _ _ _ => []

/-- A concrete distribution model satisfying `SimplexSpec`: the uniform
simplex point, and a constrained step that stays put. -/
def uniformModel : DistributionModel :=
  { random_tabular := fun n => List.replicate n ((n : ℚ))⁻¹,
    random_constrained := fun w _ => w }

/-- The unit step of each action: Left, Down, Right, Up as (row, col)
deltas. -/
def dirDelta (a : ℤ) : ℤ × ℤ :=
  if a = 0 then (0, -1)
  else if a = 1 then (1, 0)
  else if a = 2 then (0, 1)
  else if a = 3 then (-1, 0)
  else (0, 0)

/-- Modelled from the spec (section 4.1 wording, for comparison with the
source's `inc`): apply one unit step in the given direction and clamp each
coordinate into `[0, rows)` x `[0, cols)`. -/
def moveSpec (e : Env) (row col a : ℤ) : ℤ × ℤ :=
  (max 0 (min (row + (dirDelta a).1) ((e.nrow : ℤ) - 1)),
   max 0 (min (col + (dirDelta a).2) ((e.ncol : ℤ) - 1)))


/-- `inc` preserves grid bounds for every action value. -/
lemma inc_range (e : Env) (row col b : ℤ)
    (hr0 : 0 ≤ row) (hr1 : row < (e.nrow : ℤ))
    (hc0 : 0 ≤ col) (hc1 : col < (e.ncol : ℤ)) :
    0 ≤ (e.inc row col b).1 ∧ (e.inc row col b).1 < (e.nrow : ℤ) ∧
    0 ≤ (e.inc row col b).2 ∧ (e.inc row col b).2 < (e.ncol : ℤ) := by
  unfold Env.inc
  split_ifs <;> dsimp only <;> omega

/-- Row/column bounds of `to_m` on an in-range state index. -/
lemma to_m_range (e : Env) (s : ℤ) (hc : 1 ≤ e.ncol)
    (hs0 : 0 ≤ s) (hs1 : s < (e.nS : ℤ)) :
    0 ≤ (e.to_m s).1 ∧ (e.to_m s).1 < (e.nrow : ℤ) ∧
    0 ≤ (e.to_m s).2 ∧ (e.to_m s).2 < (e.ncol : ℤ) := by
  have hn : (0 : ℤ) < (e.ncol : ℤ) := by exact_mod_cast hc
  have hS : s < (e.nrow : ℤ) * (e.ncol : ℤ) := by
    have h : (e.nS : ℤ) = (e.nrow : ℤ) * (e.ncol : ℤ) := by simp [Env.nS]
    omega
  have hcol : s - s / (e.ncol : ℤ) * (e.ncol : ℤ) = s % (e.ncol : ℤ) := by
    rw [Int.emod_def]; ring
  refine ⟨Int.ediv_nonneg hs0 (le_of_lt hn), ?_, ?_, ?_⟩
  · exact (Int.ediv_lt_iff_lt_mul hn).mpr hS
  · simp only [Env.to_m, hcol]
    exact Int.emod_nonneg s (ne_of_gt hn)
  · simp only [Env.to_m, hcol]
    exact Int.emod_lt_of_pos s hn

/-- `to_s` of an in-range position is an in-range state index. -/
lemma to_s_range (e : Env) (row col : ℤ)
    (hr0 : 0 ≤ row) (hr1 : row < (e.nrow : ℤ))
    (hc0 : 0 ≤ col) (hc1 : col < (e.ncol : ℤ)) :
    0 ≤ e.to_s row col ∧ e.to_s row col < (e.nS : ℤ) := by
  have hS : (e.nS : ℤ) = (e.nrow : ℤ) * (e.ncol : ℤ) := by simp [Env.nS]
  have hnn : 0 ≤ row * (e.ncol : ℤ) := mul_nonneg hr0 (by omega)
  have hrn : (row + 1) * (e.ncol : ℤ) = row * (e.ncol : ℤ) + (e.ncol : ℤ) := by ring
  have h2 : (row + 1) * (e.ncol : ℤ) ≤ (e.nrow : ℤ) * (e.ncol : ℤ) :=
    mul_le_mul_of_nonneg_right (by omega) (by omega)
  simp only [Env.to_s]
  omega

/-- The move target of any action from an in-range state is below `nS`. -/
lemma moveTarget_lt (e : Env) (s b : ℤ) (hc : 1 ≤ e.ncol)
    (hs0 : 0 ≤ s) (hs1 : s < (e.nS : ℤ)) :
    e.moveTarget s b < e.nS := by
  obtain ⟨h1, h2, h3, h4⟩ := to_m_range e s hc hs0 hs1
  obtain ⟨i1, i2, i3, i4⟩ := inc_range e (e.to_m s).1 (e.to_m s).2 b h1 h2 h3 h4
  obtain ⟨t1, t2⟩ := to_s_range e _ _ i1 i2 i3 i4
  simp only [Env.moveTarget]
  omega


/-- `getD` on an all-zero vector. -/
lemma getD_replicate_zero (n k : ℕ) : (List.replicate n (0 : ℕ)).getD k 0 = 0 := by
  rw [List.getD_eq_getElem?_getD, List.getElem?_replicate]
  split <;> rfl

/-- Marking one in-range entry: the marked vector reads 1 at `k` exactly when
`k` is the marked index or the vector already read 1 there. -/
lemma getD_set_one (l : List ℕ) (i k : ℕ) (hi : i < l.length) :
    ((l.set i 1).getD k 0 = 1) ↔ (k = i ∨ l.getD k 0 = 1) := by
  rw [List.getD_eq_getElem?_getD, List.getElem?_set, List.getD_eq_getElem?_getD]
  rcases eq_or_ne i k with h | h
  · subst h
    simp [hi]
  · simp [h, Ne.symm h]

/-- Shape of the non-slippery reachable vector: one mark at the move target. -/
lemma reachable_states_shape_false (e : Env) (s a : ℤ) (h : e.is_slippery = false) :
    e.reachable_states s a =
      (List.replicate e.nS 0).set (e.moveTarget s a) 1 := by
  unfold Env.reachable_states Env.moveTarget
  rw [h]
  rfl

/-- Shape of the slippery reachable vector: marks at the move targets of
`(a-1)%4`, then `a`, then `(a+1)%4` (the loop order of source line 189). -/
lemma reachable_states_shape_true (e : Env) (s a : ℤ) (h : e.is_slippery = true) :
    e.reachable_states s a =
      (((List.replicate e.nS 0).set (e.moveTarget s ((a - 1) % 4)) 1).set
          (e.moveTarget s a) 1).set (e.moveTarget s ((a + 1) % 4)) 1 := by
  unfold Env.reachable_states Env.moveTarget
  rw [h]
  rfl

/-- Support characterization of `reachable_states`: slippery mode marks the
move targets of `(a-1)%4`, `a` and `(a+1)%4`; non-slippery mode marks the
move target of `a` alone. -/
lemma reachable_getD (e : Env) (s a : ℤ) (hc : 1 ≤ e.ncol)
    (hs0 : 0 ≤ s) (hs1 : s < (e.nS : ℤ)) (k : ℕ) :
    ((e.reachable_states s a).getD k 0 = 1) ↔
      (if e.is_slippery then
        (k = e.moveTarget s ((a - 1) % 4) ∨ k = e.moveTarget s a ∨
          k = e.moveTarget s ((a + 1) % 4))
      else k = e.moveTarget s a) := by
  have hm1 := moveTarget_lt e s ((a - 1) % 4) hc hs0 hs1
  have hm2 := moveTarget_lt e s a hc hs0 hs1
  have hm3 := moveTarget_lt e s ((a + 1) % 4) hc hs0 hs1
  cases hsl : e.is_slippery with
  | false =>
    rw [reachable_states_shape_false e s a hsl,
      getD_set_one _ _ _ (by simpa using hm2)]
    simp [getD_replicate_zero]
  | true =>
    rw [reachable_states_shape_true e s a hsl,
      getD_set_one _ _ _ (by simpa using hm3),
      getD_set_one _ _ _ (by simpa using hm2),
      getD_set_one _ _ _ (by simpa using hm1)]
    simp only [getD_replicate_zero, if_pos]
    constructor
    · rintro (h | h | h | h) <;> tauto
    · rintro (h | h | h) <;> tauto

/-- Every entry of a reachable-state vector is 0 or 1. -/
lemma reachable_entries_le_one (e : Env) (s a : ℤ) :
    ∀ x ∈ e.reachable_states s a, x ≤ 1 := by
  intro x hx
  have base : ∀ y ∈ List.replicate e.nS (0 : ℕ), y ≤ 1 := by
    intro y hy
    rcases List.eq_of_mem_replicate hy with rfl
    omega
  cases hsl : e.is_slippery with
  | false =>
    rw [reachable_states_shape_false e s a hsl] at hx
    rcases List.mem_or_eq_of_mem_set hx with h | rfl
    · exact base _ h
    · exact le_refl 1
  | true =>
    rw [reachable_states_shape_true e s a hsl] at hx
    rcases List.mem_or_eq_of_mem_set hx with h | rfl
    · rcases List.mem_or_eq_of_mem_set h with h2 | rfl
      · rcases List.mem_or_eq_of_mem_set h2 with h3 | rfl
        · exact base _ h3
        · exact le_refl 1
      · exact le_refl 1
    · exact le_refl 1

/-- The reachable-state vector has length `nS`. -/
lemma reachable_length (e : Env) (s a : ℤ) :
    (e.reachable_states s a).length = e.nS := by
  cases hsl : e.is_slippery with
  | false => rw [reachable_states_shape_false e s a hsl]; simp
  | true => rw [reachable_states_shape_true e s a hsl]; simp

/-- A reachable-state vector from an in-range state marks at least one
entry. -/
lemma reachable_sum_pos (e : Env) (s a : ℤ) (hc : 1 ≤ e.ncol)
    (hs0 : 0 ≤ s) (hs1 : s < (e.nS : ℤ)) :
    1 ≤ (e.reachable_states s a).sum := by
  have hk : ((e.reachable_states s a).getD (e.moveTarget s a) 0 = 1) := by
    rw [reachable_getD e s a hc hs0 hs1]
    split <;> tauto
  have hlen : e.moveTarget s a < (e.reachable_states s a).length := by
    rw [reachable_length]; exact moveTarget_lt e s a hc hs0 hs1
  rw [List.getD_eq_getElem?_getD, List.getElem?_eq_getElem hlen] at hk
  simp only [Option.getD_some] at hk
  calc (1 : ℕ) = (e.reachable_states s a)[e.moveTarget s a] := hk.symm
    _ ≤ (e.reachable_states s a).sum :=
        List.single_le_sum (by intro x _; omega) _ (List.getElem_mem hlen)

/-- The scattered row is as long as the reachable vector. -/
lemma scatterFn_length (rs : List ℕ) (w : List ℚ) :
    (scatterFn rs w).length = rs.length := by
  induction rs generalizing w with
  | nil => rfl
  | cons x xs ih =>
    by_cases hx : x = 0 <;> simp [scatterFn, hx, ih]

/-- A nonempty list has a last element equal to its `getLastD`. -/
lemma getLast?_eq_some_getLastD (w : List ℚ) (hw : w ≠ []) :
    w.getLast? = some (w.getLastD 0) := by
  rw [List.getLastD_eq_getLast?]
  cases h : w.getLast? with
  | none => exact absurd (List.getLast?_eq_none_iff.mp h) hw
  | some v => rfl

/-- When the weight list has exactly as many entries as there are marks,
every pop succeeds and `scatterRow` computes `scatterFn`. -/
lemma scatterRow_eq_scatterFn (rs : List ℕ) (w : List ℚ)
    (h01 : ∀ x ∈ rs, x ≤ 1) (hlen : rs.sum = w.length) :
    scatterRow rs w = .ok (scatterFn rs w) := by
  induction rs generalizing w with
  | nil => rfl
  | cons x xs ih =>
    have hx01 : x = 0 ∨ x = 1 := by
      have := h01 x (by simp)
      omega
    rcases hx01 with rfl | rfl
    · have hlen2 : xs.sum = w.length := by simpa using hlen
      simp [scatterRow, scatterFn,
        ih w (fun y hy => h01 y (by simp [hy])) hlen2, Except.map]
    · have hw : w ≠ [] := by
        have h1 : 1 + xs.sum = w.length := by simpa using hlen
        intro h
        rw [h] at h1
        simp at h1
      have hlen2 : xs.sum = w.dropLast.length := by
        have h1 : 1 + xs.sum = w.length := by simpa using hlen
        have h2 : w.dropLast.length = w.length - 1 := List.length_dropLast w
        omega
      obtain ⟨v, hlast⟩ : ∃ v, w.getLast? = some v :=
        ⟨w.getLastD 0, getLast?_eq_some_getLastD w hw⟩
      have hv : w.getLastD 0 = v := by
        rw [List.getLastD_eq_getLast?, hlast]
        rfl
      simp only [scatterRow, scatterFn, if_neg (one_ne_zero), hlast, hv,
        ih w.dropLast (fun y hy => h01 y (by simp [hy])) hlen2, Except.map]

/-- Splitting off the last element of a nonempty list's sum. -/
lemma dropLast_sum_getLastD (w : List ℚ) (hw : w ≠ []) :
    w.dropLast.sum + w.getLastD 0 = w.sum := by
  conv_rhs => rw [← List.dropLast_append_getLast hw]
  rw [List.sum_append, List.getLastD_eq_getLast?, List.getLast?_eq_getLast w hw]
  simp

/-- The scattered row redistributes exactly the weight mass. -/
lemma scatterFn_sum (rs : List ℕ) (w : List ℚ)
    (h01 : ∀ x ∈ rs, x ≤ 1) (hlen : rs.sum = w.length) :
    (scatterFn rs w).sum = w.sum := by
  induction rs generalizing w with
  | nil =>
    have h0 : w.length = 0 := by simpa using hlen.symm
    rcases List.eq_nil_of_length_eq_zero h0 with rfl
    rfl
  | cons x xs ih =>
    have hx01 : x = 0 ∨ x = 1 := by
      have := h01 x (by simp)
      omega
    rcases hx01 with rfl | rfl
    · have hlen2 : xs.sum = w.length := by simpa using hlen
      simp [scatterFn, ih w (fun y hy => h01 y (by simp [hy])) hlen2]
    · have hw : w ≠ [] := by
        have h1 : 1 + xs.sum = w.length := by simpa using hlen
        intro h
        rw [h] at h1
        simp at h1
      have hlen2 : xs.sum = w.dropLast.length := by
        have h1 : 1 + xs.sum = w.length := by simpa using hlen
        have h2 : w.dropLast.length = w.length - 1 := List.length_dropLast w
        omega
      have hrec := ih w.dropLast (fun y hy => h01 y (by simp [hy])) hlen2
      simp only [scatterFn, if_neg (one_ne_zero), List.sum_cons, hrec]
      have hsplit := dropLast_sum_getLastD w hw
      linarith

/-- Every entry of the scattered row is zero or one of the weights. -/
lemma scatterFn_mem (rs : List ℕ) (w : List ℚ) :
    ∀ y ∈ scatterFn rs w, y = 0 ∨ y ∈ w := by
  induction rs generalizing w with
  | nil => simp [scatterFn]
  | cons x xs ih =>
    intro y hy
    by_cases hx : x = 0
    · simp only [scatterFn, if_pos hx, List.mem_cons] at hy
      rcases hy with rfl | hy
      · exact Or.inl rfl
      · exact ih w y hy
    · simp only [scatterFn, if_neg hx, List.mem_cons] at hy
      rcases hy with rfl | hy
      · cases hw : w.getLast? with
        | none =>
          left
          rw [List.getLastD_eq_getLast?, hw]
          rfl
        | some v =>
          right
          rw [List.getLastD_eq_getLast?, hw]
          exact List.mem_of_mem_getLast? hw
      · rcases ih w.dropLast y hy with h | h
        · exact Or.inl h
        · exact Or.inr (List.dropLast_subset w h)

/-- Unfolding `scatterFn` over a marked head. -/
lemma scatterFn_cons_ne (x : ℕ) (hx : x ≠ 0) (xs : List ℕ) (w : List ℚ) :
    scatterFn (x :: xs) w = w.getLastD 0 :: scatterFn xs w.dropLast := by
  simp [scatterFn, hx]

/-- Unfolding `scatterFn` over an unmarked head. -/
lemma scatterFn_cons_zero (xs : List ℕ) (w : List ℚ) :
    scatterFn (0 :: xs) w = (0 : ℚ) :: scatterFn xs w := by
  simp [scatterFn]

/-- `getLastD` as a positional read of the last entry. -/
lemma getLastD_eq_getD (w : List ℚ) (_hw : w ≠ []) :
    w.getLastD 0 = w.getD (w.length - 1) 0 := by
  rw [List.getLastD_eq_getLast?, List.getLast?_eq_getElem?, List.getD_eq_getElem?_getD]

/-- `dropLast` keeps every position strictly before the last. -/
lemma dropLast_getD (w : List ℚ) (j : ℕ) (hj : j < w.length - 1) :
    w.dropLast.getD j 0 = w.getD j 0 := by
  rw [List.getD_eq_getElem?_getD, List.getD_eq_getElem?_getD, List.getElem?_dropLast,
    if_pos hj]

/-- An in-range entry is at most the list's sum. -/
lemma getD_le_sum (l : List ℕ) (k : ℕ) (hk : k < l.length) :
    l.getD k 0 ≤ l.sum := by
  rw [List.getD_eq_getElem?_getD, List.getElem?_eq_getElem hk]
  exact List.single_le_sum (by intro x _; omega) _ (List.getElem_mem hk)

/-- Positionwise description of the scattered row: position `k` reads zero
off the support and the weight at slot `length - 1 - (marks before k)` on
the support. -/
lemma scatterFn_getD (rs : List ℕ) (w : List ℚ)
    (h01 : ∀ x ∈ rs, x ≤ 1) (hlen : rs.sum = w.length) :
    ∀ k, k < rs.length →
      (scatterFn rs w).getD k 0 =
        if rs.getD k 0 = 0 then 0
        else w.getD (w.length - 1 - (rs.take k).sum) 0 := by
  induction rs generalizing w with
  | nil => intro k hk; simp at hk
  | cons x xs ih =>
    intro k hk
    have hx01 : x = 0 ∨ x = 1 := by
      have := h01 x (by simp)
      omega
    rcases hx01 with rfl | rfl
    · have hlen2 : xs.sum = w.length := by simpa using hlen
      cases k with
      | zero => simp [scatterFn]
      | succ k =>
        have hk2 : k < xs.length := by simpa using hk
        have := ih w (fun y hy => h01 y (by simp [hy])) hlen2 k hk2
        simpa [scatterFn, List.take_succ_cons] using this
    · have hw : w ≠ [] := by
        have h1 : 1 + xs.sum = w.length := by simpa using hlen
        intro h
        rw [h] at h1
        simp at h1
      have h1 : 1 + xs.sum = w.length := by simpa using hlen
      have hdl : w.dropLast.length = w.length - 1 := List.length_dropLast w
      have hlen2 : xs.sum = w.dropLast.length := by omega
      cases k with
      | zero =>
        rw [scatterFn_cons_ne 1 one_ne_zero, getLastD_eq_getD w hw]
        simp
      | succ k =>
        have hk2 : k < xs.length := by simpa using hk
        have hrec := ih w.dropLast (fun y hy => h01 y (by simp [hy])) hlen2 k hk2
        rw [scatterFn_cons_ne 1 one_ne_zero]
        simp only [List.getD_cons_succ, List.take_succ_cons, List.sum_cons, hrec]
        by_cases hz : xs.getD k 0 = 0
        · rw [List.getD_eq_getElem?_getD] at hz
          simp [hz]
        · have hge : 1 ≤ xs.getD k 0 := by omega
          have hsle : (xs.take k).sum + xs.getD k 0 ≤ xs.sum := by
            have e1 : (xs.take (k+1)).sum = (xs.take k).sum + xs.getD k 0 := by
              rw [List.take_succ, List.sum_append, List.getD_eq_getElem?_getD,
                List.getElem?_eq_getElem hk2]
              simp
            have e2 : (xs.take (k+1)).sum + (xs.drop (k+1)).sum = xs.sum :=
              List.sum_take_add_sum_drop xs (k+1)
            omega
          have hj : w.length - 1 - 1 - (xs.take k).sum < w.length - 1 := by omega
          rw [if_neg hz, if_neg hz, dropLast_getD w _ (by omega), hdl]
          congr 1
          omega

/-- L1 distance splits at the last coordinate of equal-length nonempty
vectors. -/
lemma l1dist_split_last (v w : List ℚ) (hv : v ≠ []) (hw : w ≠ [])
    (h : v.length = w.length) :
    l1dist v w = l1dist v.dropLast w.dropLast + |v.getLastD 0 - w.getLastD 0| := by
  conv_lhs => rw [← List.dropLast_append_getLast hv, ← List.dropLast_append_getLast hw]
  unfold l1dist
  rw [List.zipWith_append _ _ _ _ _ (by simp [h]), List.sum_append]
  have hv2 : v.getLastD 0 = v.getLast hv := by
    rw [List.getLastD_eq_getLast?, List.getLast?_eq_getLast v hv]
    rfl
  have hw2 : w.getLastD 0 = w.getLast hw := by
    rw [List.getLastD_eq_getLast?, List.getLast?_eq_getLast w hw]
    rfl
  rw [hv2, hw2]
  simp

/-- Scattering two weight vectors over the same support preserves their L1
distance: the zero positions contribute nothing and the marked positions
read the two vectors at identical slots. -/
lemma scatterFn_l1 (rs : List ℕ) (w w' : List ℚ)
    (h01 : ∀ x ∈ rs, x ≤ 1) (hlen : rs.sum = w.length) (hlen' : rs.sum = w'.length) :
    l1dist (scatterFn rs w) (scatterFn rs w') = l1dist w w' := by
  induction rs generalizing w w' with
  | nil =>
    have e1 : w.length = 0 := by simpa using hlen.symm
    have e2 : w'.length = 0 := by simpa using hlen'.symm
    rcases List.eq_nil_of_length_eq_zero e1 with rfl
    rcases List.eq_nil_of_length_eq_zero e2 with rfl
    rfl
  | cons x xs ih =>
    have hx01 : x = 0 ∨ x = 1 := by
      have := h01 x (by simp)
      omega
    rcases hx01 with rfl | rfl
    · have hlen2 : xs.sum = w.length := by simpa using hlen
      have hlen2' : xs.sum = w'.length := by simpa using hlen'
      have hrec := ih w w' (fun y hy => h01 y (by simp [hy])) hlen2 hlen2'
      rw [scatterFn_cons_zero, scatterFn_cons_zero]
      simp only [l1dist, List.zipWith_cons_cons, List.sum_cons] at hrec ⊢
      rw [hrec]
      simp
    · have h1 : 1 + xs.sum = w.length := by simpa using hlen
      have h1' : 1 + xs.sum = w'.length := by simpa using hlen'
      have hw : w ≠ [] := by
        intro h
        rw [h] at h1
        simp at h1
      have hw' : w' ≠ [] := by
        intro h
        rw [h] at h1'
        simp at h1'
      have hlen2 : xs.sum = w.dropLast.length := by
        have := List.length_dropLast w
        omega
      have hlen2' : xs.sum = w'.dropLast.length := by
        have := List.length_dropLast w'
        omega
      have hrec := ih w.dropLast w'.dropLast
        (fun y hy => h01 y (by simp [hy])) hlen2 hlen2'
      rw [scatterFn_cons_ne 1 one_ne_zero, scatterFn_cons_ne 1 one_ne_zero]
      rw [l1dist_split_last w w' hw hw' (by omega)]
      simp only [l1dist, List.zipWith_cons_cons, List.sum_cons] at hrec ⊢
      rw [hrec]
      ring

/-- Under `SimplexSpec`, every vector of the drawn sequence is a simplex
point of the support's dimension. -/
lemma wseq_spec (D : DistributionModel) (hD : SimplexSpec D) (n : ℕ) (hn : 1 ≤ n)
    (δ : ℚ) (hδ : 0 ≤ δ) :
    ∀ t, (wseq D n δ t).length = n ∧ (∀ x ∈ wseq D n δ t, 0 ≤ x) ∧
      (wseq D n δ t).sum = 1 := by
  intro t
  induction t with
  | zero => exact hD.1 n hn
  | succ t ih =>
    obtain ⟨hl, hnn, hs⟩ := ih
    obtain ⟨cl, cnn, cs, _⟩ := hD.2 (wseq D n δ t) δ hδ hnn hs
    exact ⟨by rw [wseq, cl, hl], by rw [wseq]; exact cnn, by rw [wseq]; exact cs⟩

/-- Under `SimplexSpec`, consecutive drawn vectors are within `δ` in L1
distance. -/
lemma wseq_step (D : DistributionModel) (hD : SimplexSpec D) (n : ℕ) (hn : 1 ≤ n)
    (δ : ℚ) (hδ : 0 ≤ δ) (t : ℕ) :
    l1dist (wseq D n δ t) (wseq D n δ (t + 1)) ≤ δ := by
  obtain ⟨_, hnn, hs⟩ := wseq_spec D hD n hn δ hδ t
  exact (hD.2 (wseq D n δ t) δ hδ hnn hs).2.2.2

/-- Prefix sums are monotone in the prefix length. -/
lemma sum_take_mono (l : List ℕ) (m n : ℕ) (h : m ≤ n) :
    (l.take m).sum ≤ (l.take n).sum := by
  induction l generalizing m n with
  | nil => simp
  | cons x xs ih =>
    cases m with
    | zero => simp
    | succ m =>
      cases n with
      | zero => omega
      | succ n =>
        simp only [List.take_succ_cons, List.sum_cons]
        have := ih m n (by omega)
        omega

/-- A prefix sum never exceeds the total sum. -/
lemma sum_take_le (l : List ℕ) (k : ℕ) : (l.take k).sum ≤ l.sum := by
  have := List.sum_take_add_sum_drop l k
  omega

/-- Reading one more entry adds exactly that entry to the prefix sum. -/
lemma sum_take_succ_getD (l : List ℕ) (k : ℕ) (hk : k < l.length) :
    (l.take (k + 1)).sum = (l.take k).sum + l.getD k 0 := by
  rw [List.take_succ, List.sum_append, List.getD_eq_getElem?_getD,
    List.getElem?_eq_getElem hk]
  simp

/-- On marked positions, `componentIndex` is injective: two different marked
positions read different weight slots. -/
lemma componentIndex_inj (rs : List ℕ) (k k2 : ℕ)
    (hk : k < rs.length) (hk2 : k2 < rs.length)
    (hm : rs.getD k 0 ≠ 0) (hm2 : rs.getD k2 0 ≠ 0)
    (heq : componentIndex rs k = componentIndex rs k2) : k = k2 := by
  have key : ∀ i j : ℕ, i < rs.length → j < rs.length → rs.getD i 0 ≠ 0 → i < j →
      (rs.take i).sum < (rs.take j).sum := by
    intro i j hi hj hmi hij
    have e1 : (rs.take (i + 1)).sum = (rs.take i).sum + rs.getD i 0 :=
      sum_take_succ_getD rs i hi
    have e2 : (rs.take (i + 1)).sum ≤ (rs.take j).sum := sum_take_mono rs (i + 1) j hij
    omega
  have hb : ∀ i : ℕ, i < rs.length → rs.getD i 0 ≠ 0 →
      (rs.take i).sum + 1 ≤ rs.sum := by
    intro i hi hmi
    have e1 : (rs.take (i + 1)).sum = (rs.take i).sum + rs.getD i 0 :=
      sum_take_succ_getD rs i hi
    have e2 : (rs.take (i + 1)).sum ≤ rs.sum := sum_take_le rs (i + 1)
    omega
  rcases lt_trichotomy k k2 with h | h | h
  · have h1 := key k k2 hk hk2 hm h
    have h2 := hb k2 hk2 hm2
    have h3 := hb k hk hm
    unfold componentIndex at heq
    omega
  · exact h
  · have h1 := key k2 k hk2 hk hm2 h
    have h2 := hb k2 hk2 hm2
    have h3 := hb k hk hm
    unfold componentIndex at heq
    omega

/-- The stay-put model satisfies the spec contract. -/
lemma uniformModel_spec : SimplexSpec uniformModel := by
  constructor
  · intro n hn
    refine ⟨by simp [uniformModel], ?_, ?_⟩
    · intro x hx
      rcases List.eq_of_mem_replicate hx with rfl
      positivity
    · have hne : ((n : ℚ)) ≠ 0 := Nat.cast_ne_zero.mpr (by omega)
      simp [uniformModel, List.sum_replicate, hne]
  · intro w δ hδ hnn hs
    refine ⟨rfl, hnn, hs, ?_⟩
    have : l1dist w w = 0 := by
      unfold l1dist
      induction w with
      | nil => rfl
      | cons x xs ih =>
        simp only [List.zipWith_cons_cons, List.sum_cons, ih]
        simp
    simp [uniformModel, this, hδ]

/-- Claim C9: `inc` is total; for every in-range position and action in
{0,1,2,3} it returns the position moved one unit left, down, right or up
with each coordinate clamped into the grid (a move off the edge leaves the
coordinate unchanged), and the result is always in range. -/
theorem inc_total_clamped_in_range (e : Env) (row col a : ℤ)
    (hr0 : 0 ≤ row) (hr1 : row < (e.nrow : ℤ))
    (hc0 : 0 ≤ col) (hc1 : col < (e.ncol : ℤ))
    (ha0 : 0 ≤ a) (ha1 : a < 4) :
    e.inc row col a = moveSpec e row col a ∧
    0 ≤ (e.inc row col a).1 ∧ (e.inc row col a).1 < (e.nrow : ℤ) ∧
    0 ≤ (e.inc row col a).2 ∧ (e.inc row col a).2 < (e.ncol : ℤ) := by
  have hcase : a = 0 ∨ a = 1 ∨ a = 2 ∨ a = 3 := by omega
  rcases hcase with rfl | rfl | rfl | rfl <;>
    simp [Env.inc, moveSpec, dirDelta, Prod.mk.injEq] <;> omega

/-- Witness for C9 at a concrete input. -/
theorem inc_total_clamped_in_range_witness :
    env4.inc 1 2 3 = moveSpec env4 1 2 3 ∧
    0 ≤ (env4.inc 1 2 3).1 ∧ (env4.inc 1 2 3).1 < (env4.nrow : ℤ) ∧
    0 ≤ (env4.inc 1 2 3).2 ∧ (env4.inc 1 2 3).2 < (env4.ncol : ℤ) :=
  inc_total_clamped_in_range env4 1 2 3 (by decide) (by decide) (by decide)
    (by decide) (by decide) (by decide)

/-- Claim C10: `to_s` and `to_m` are exact inverses on in-range values:
`to_m (to_s row col) = (row, col)` and `to_s (to_m s) = s`. -/
theorem to_s_to_m_exact_inverses (e : Env) (row col s : ℤ)
    (hcol1 : 1 ≤ e.ncol)
    (hr0 : 0 ≤ row) (hr1 : row < (e.nrow : ℤ))
    (hc0 : 0 ≤ col) (hc1 : col < (e.ncol : ℤ))
    (hs0 : 0 ≤ s) (hs1 : s < (e.nS : ℤ)) :
    e.to_m (e.to_s row col) = (row, col) ∧
    e.to_s (e.to_m s).1 (e.to_m s).2 = s := by
  have hn : (0 : ℤ) < (e.ncol : ℤ) := by exact_mod_cast hcol1
  constructor
  · have hdiv : (row * (e.ncol : ℤ) + col) / (e.ncol : ℤ) = row := by
      rw [add_comm, Int.add_mul_ediv_right col row (ne_of_gt hn),
        Int.ediv_eq_zero_of_lt hc0 hc1]
      ring
    unfold Env.to_m Env.to_s
    unfold Env.to_s at hdiv
    rw [hdiv]
    simp only [Prod.mk.injEq]
    exact ⟨trivial, by ring⟩
  · unfold Env.to_m Env.to_s
    ring

/-- Witness for C10 at a concrete input. -/
theorem to_s_to_m_exact_inverses_witness :
    env4.to_m (env4.to_s 2 3) = (2, 3) ∧
    env4.to_s (env4.to_m 14).1 (env4.to_m 14).2 = 14 :=
  to_s_to_m_exact_inverses env4 2 3 14 (by decide) (by decide) (by decide)
    (by decide) (by decide) (by decide) (by decide)

/-- Claim C3: with `is_slippery` false, `reachable_states` marks exactly one
state, the clamped move of the intended action; with `is_slippery` true it
marks exactly the moves of `(a-1)%4`, `a` and `(a+1)%4` — between 1 and 3
distinct states after clamping — and the opposite action's move `(a+2)%4`
is marked only when it coincides with one of those three. -/
theorem reachable_states_support (e : Env) (s a : ℤ)
    (hrow1 : 1 ≤ e.nrow) (hcol1 : 1 ≤ e.ncol)
    (hs0 : 0 ≤ s) (hs1 : s < (e.nS : ℤ)) (ha0 : 0 ≤ a) (ha1 : a < 4) :
    (e.is_slippery = false →
      ∀ k : ℕ, ((e.reachable_states s a).getD k 0 = 1 ↔ k = e.moveTarget s a)) ∧
    (e.is_slippery = true →
      ((∀ k : ℕ, ((e.reachable_states s a).getD k 0 = 1 ↔
          (k = e.moveTarget s ((a - 1) % 4) ∨ k = e.moveTarget s a ∨
            k = e.moveTarget s ((a + 1) % 4)))) ∧
        1 ≤ ({e.moveTarget s ((a - 1) % 4), e.moveTarget s a,
              e.moveTarget s ((a + 1) % 4)} : Finset ℕ).card ∧
        ({e.moveTarget s ((a - 1) % 4), e.moveTarget s a,
          e.moveTarget s ((a + 1) % 4)} : Finset ℕ).card ≤ 3 ∧
        ((e.reachable_states s a).getD (e.moveTarget s ((a + 2) % 4)) 0 = 1 →
          (e.moveTarget s ((a + 2) % 4) = e.moveTarget s ((a - 1) % 4) ∨
           e.moveTarget s ((a + 2) % 4) = e.moveTarget s a ∨
           e.moveTarget s ((a + 2) % 4) = e.moveTarget s ((a + 1) % 4))))) := by
  have hchar := fun k => reachable_getD e s a hcol1 hs0 hs1 k
  constructor
  · intro hsl k
    have h := hchar k
    rw [if_neg (by simp [hsl])] at h
    exact h
  · intro hsl
    have hchar2 : ∀ k : ℕ, ((e.reachable_states s a).getD k 0 = 1 ↔
        (k = e.moveTarget s ((a - 1) % 4) ∨ k = e.moveTarget s a ∨
          k = e.moveTarget s ((a + 1) % 4))) := by
      intro k
      have h := hchar k
      rw [if_pos (by simp [hsl])] at h
      exact h
    refine ⟨hchar2, ?_, ?_, ?_⟩
    · exact Finset.card_pos.mpr ⟨_, Finset.mem_insert_self _ _⟩
    · calc ({e.moveTarget s ((a - 1) % 4), e.moveTarget s a,
              e.moveTarget s ((a + 1) % 4)} : Finset ℕ).card
          ≤ ({e.moveTarget s a, e.moveTarget s ((a + 1) % 4)} : Finset ℕ).card + 1 :=
            Finset.card_insert_le _ _
        _ ≤ (({e.moveTarget s ((a + 1) % 4)} : Finset ℕ).card + 1) + 1 := by
            have h := Finset.card_insert_le (e.moveTarget s a)
              ({e.moveTarget s ((a + 1) % 4)} : Finset ℕ)
            omega
        _ ≤ 3 := by simp
    · intro h
      exact (hchar2 _).mp h

/-- Witness for C3 at a concrete input (the slippery 4x4 map, state 5,
action Right). -/
theorem reachable_states_support_witness :
    (env4s.is_slippery = false →
      ∀ k : ℕ, ((env4s.reachable_states 5 2).getD k 0 = 1 ↔
        k = env4s.moveTarget 5 2)) ∧
    (env4s.is_slippery = true →
      ((∀ k : ℕ, ((env4s.reachable_states 5 2).getD k 0 = 1 ↔
          (k = env4s.moveTarget 5 ((2 - 1) % 4) ∨ k = env4s.moveTarget 5 2 ∨
            k = env4s.moveTarget 5 ((2 + 1) % 4)))) ∧
        1 ≤ ({env4s.moveTarget 5 ((2 - 1) % 4), env4s.moveTarget 5 2,
              env4s.moveTarget 5 ((2 + 1) % 4)} : Finset ℕ).card ∧
        ({env4s.moveTarget 5 ((2 - 1) % 4), env4s.moveTarget 5 2,
          env4s.moveTarget 5 ((2 + 1) % 4)} : Finset ℕ).card ≤ 3 ∧
        ((env4s.reachable_states 5 2).getD (env4s.moveTarget 5 ((2 + 2) % 4)) 0 = 1 →
          (env4s.moveTarget 5 ((2 + 2) % 4) = env4s.moveTarget 5 ((2 - 1) % 4) ∨
           env4s.moveTarget 5 ((2 + 2) % 4) = env4s.moveTarget 5 2 ∨
           env4s.moveTarget 5 ((2 + 2) % 4) = env4s.moveTarget 5 ((2 + 1) % 4))))) :=
  reachable_states_support env4s 5 2 (by decide) (by decide) (by decide)
    (by decide) (by decide) (by decide)

/-- Claim C1: for an in-range (position, action, time), the kernel row built
by the generation loop body is non-negative everywhere, sums to exactly 1
(floats are modelled as rationals, so "within floating tolerance" is exact),
and is zero at every next-position outside `reachable_states(p, a)`. -/
theorem kernel_row_valid_distribution (e : Env) (D : DistributionModel)
    (hD : SimplexSpec D) (p a : ℤ) (t : ℕ)
    (hrow1 : 1 ≤ e.nrow) (hcol1 : 1 ≤ e.ncol)
    (hp0 : 0 ≤ p) (hp1 : p < (e.nS : ℤ)) (ha0 : 0 ≤ a) (ha1 : a < 4)
    (ht : t < e.nT) :
    ∃ row, e.kernelRow D p a t = Except.ok row ∧
      row.length = e.nS ∧
      (∀ x ∈ row, 0 ≤ x) ∧
      row.sum = 1 ∧
      (∀ k : ℕ, (e.reachable_states p a).getD k 0 = 0 → row.getD k 0 = 0) := by
  have h01 : ∀ x ∈ e.reachable_states p a, x ≤ 1 := reachable_entries_le_one e p a
  have hn : 1 ≤ (e.reachable_states p a).sum := reachable_sum_pos e p a hcol1 hp0 hp1
  have hδ : (0 : ℚ) ≤ e.L_p * e.timestep := by norm_num [Env.L_p, Env.timestep]
  obtain ⟨hwl, hwnn, hws⟩ :=
    wseq_spec D hD (e.reachable_states p a).sum hn (e.L_p * e.timestep) hδ t
  have hlen : (e.reachable_states p a).sum =
      (wseq D (e.reachable_states p a).sum (e.L_p * e.timestep) t).length := hwl.symm
  have heq : e.kernelRow D p a t =
      .ok (scatterFn (e.reachable_states p a)
        (wseq D (e.reachable_states p a).sum (e.L_p * e.timestep) t)) := by
    unfold Env.kernelRow
    exact scatterRow_eq_scatterFn _ _ h01 hlen
  refine ⟨_, heq, ?_, ?_, ?_, ?_⟩
  · rw [scatterFn_length, reachable_length]
  · intro x hx
    rcases scatterFn_mem _ _ x hx with rfl | hxw
    · exact le_refl 0
    · exact hwnn x hxw
  · rw [scatterFn_sum _ _ h01 hlen, hws]
  · intro k hk
    by_cases hklen : k < (e.reachable_states p a).length
    · rw [scatterFn_getD _ _ h01 hlen k hklen, if_pos hk]
    · apply List.getD_eq_default
      rw [scatterFn_length]
      omega

/-- Witness for C1 at a concrete input. -/
theorem kernel_row_valid_distribution_witness :
    ∃ row, env4.kernelRow uniformModel 0 1 0 = Except.ok row ∧
      row.length = env4.nS ∧
      (∀ x ∈ row, 0 ≤ x) ∧
      row.sum = 1 ∧
      (∀ k : ℕ, (env4.reachable_states 0 1).getD k 0 = 0 → row.getD k 0 = 0) :=
  kernel_row_valid_distribution env4 uniformModel uniformModel_spec 0 1 0
    (by decide) (by decide) (by decide) (by decide) (by decide) (by decide)
    (by decide)

/-- Claim C2: for an in-range (position, action) and consecutive timesteps
`t`, `t+1` below `nT`, the L1 (total-variation) distance between the two
kernel rows is at most `L_p * timestep` (= 0.1 * 1). -/
theorem kernel_rows_lipschitz_step (e : Env) (D : DistributionModel)
    (hD : SimplexSpec D) (p a : ℤ) (t : ℕ)
    (hrow1 : 1 ≤ e.nrow) (hcol1 : 1 ≤ e.ncol)
    (hp0 : 0 ≤ p) (hp1 : p < (e.nS : ℤ)) (ha0 : 0 ≤ a) (ha1 : a < 4)
    (ht : t + 1 < e.nT) :
    ∃ row row2, e.kernelRow D p a t = Except.ok row ∧
      e.kernelRow D p a (t + 1) = Except.ok row2 ∧
      l1dist row row2 ≤ e.L_p * e.timestep := by
  have h01 : ∀ x ∈ e.reachable_states p a, x ≤ 1 := reachable_entries_le_one e p a
  have hn : 1 ≤ (e.reachable_states p a).sum := reachable_sum_pos e p a hcol1 hp0 hp1
  have hδ : (0 : ℚ) ≤ e.L_p * e.timestep := by norm_num [Env.L_p, Env.timestep]
  obtain ⟨hwl, _, _⟩ :=
    wseq_spec D hD (e.reachable_states p a).sum hn (e.L_p * e.timestep) hδ t
  obtain ⟨hwl2, _, _⟩ :=
    wseq_spec D hD (e.reachable_states p a).sum hn (e.L_p * e.timestep) hδ (t + 1)
  have heq : e.kernelRow D p a t =
      .ok (scatterFn (e.reachable_states p a)
        (wseq D (e.reachable_states p a).sum (e.L_p * e.timestep) t)) := by
    unfold Env.kernelRow
    exact scatterRow_eq_scatterFn _ _ h01 hwl.symm
  have heq2 : e.kernelRow D p a (t + 1) =
      .ok (scatterFn (e.reachable_states p a)
        (wseq D (e.reachable_states p a).sum (e.L_p * e.timestep) (t + 1))) := by
    unfold Env.kernelRow
    exact scatterRow_eq_scatterFn _ _ h01 hwl2.symm
  refine ⟨_, _, heq, heq2, ?_⟩
  rw [scatterFn_l1 _ _ _ h01 hwl.symm hwl2.symm]
  exact wseq_step D hD (e.reachable_states p a).sum hn (e.L_p * e.timestep) hδ t

/-- Witness for C2 at a concrete input. -/
theorem kernel_rows_lipschitz_step_witness :
    ∃ row row2, env4s.kernelRow uniformModel 5 0 3 = Except.ok row ∧
      env4s.kernelRow uniformModel 5 0 4 = Except.ok row2 ∧
      l1dist row row2 ≤ env4s.L_p * env4s.timestep :=
  kernel_rows_lipschitz_step env4s uniformModel uniformModel_spec 5 0 3
    (by decide) (by decide) (by decide) (by decide) (by decide) (by decide)
    (by decide)

/-- Claim C6: for each (position, action) the scatter step reads the weight
vector through one fixed position-to-slot map, `componentIndex`, which
depends only on the reachable vector and hence is the same at every
timestep `t`; on the support this map is injective, so the i-th weight
component lands at the same next-position index at every `t`. -/
theorem kernel_row_fixed_component_map (e : Env) (D : DistributionModel)
    (hD : SimplexSpec D) (p a : ℤ) (t : ℕ)
    (hrow1 : 1 ≤ e.nrow) (hcol1 : 1 ≤ e.ncol)
    (hp0 : 0 ≤ p) (hp1 : p < (e.nS : ℤ)) (ha0 : 0 ≤ a) (ha1 : a < 4)
    (ht : t < e.nT) :
    ∃ row, e.kernelRow D p a t = Except.ok row ∧
      (∀ k : ℕ, k < e.nS →
        row.getD k 0 =
          (if (e.reachable_states p a).getD k 0 = 0 then 0
           else (wseq D (e.reachable_states p a).sum (e.L_p * e.timestep) t).getD
             (componentIndex (e.reachable_states p a) k) 0)) ∧
      (∀ k k2 : ℕ, k < e.nS → k2 < e.nS →
        (e.reachable_states p a).getD k 0 ≠ 0 →
        (e.reachable_states p a).getD k2 0 ≠ 0 →
        componentIndex (e.reachable_states p a) k =
          componentIndex (e.reachable_states p a) k2 → k = k2) := by
  have h01 : ∀ x ∈ e.reachable_states p a, x ≤ 1 := reachable_entries_le_one e p a
  have hn : 1 ≤ (e.reachable_states p a).sum := reachable_sum_pos e p a hcol1 hp0 hp1
  have hδ : (0 : ℚ) ≤ e.L_p * e.timestep := by norm_num [Env.L_p, Env.timestep]
  obtain ⟨hwl, _, _⟩ :=
    wseq_spec D hD (e.reachable_states p a).sum hn (e.L_p * e.timestep) hδ t
  have heq : e.kernelRow D p a t =
      .ok (scatterFn (e.reachable_states p a)
        (wseq D (e.reachable_states p a).sum (e.L_p * e.timestep) t)) := by
    unfold Env.kernelRow
    exact scatterRow_eq_scatterFn _ _ h01 hwl.symm
  refine ⟨_, heq, ?_, ?_⟩
  · intro k hk
    have hklen : k < (e.reachable_states p a).length := by
      rw [reachable_length]
      exact hk
    rw [scatterFn_getD _ _ h01 hwl.symm k hklen, hwl]
    rfl
  · intro k k2 hk hk2 hm hm2 hcomp
    exact componentIndex_inj (e.reachable_states p a) k k2
      (by rw [reachable_length]; exact hk) (by rw [reachable_length]; exact hk2)
      hm hm2 hcomp

/-- Witness for C6 at a concrete input. -/
theorem kernel_row_fixed_component_map_witness :
    ∃ row, env4s.kernelRow uniformModel 9 3 7 = Except.ok row ∧
      (∀ k : ℕ, k < env4s.nS →
        row.getD k 0 =
          (if (env4s.reachable_states 9 3).getD k 0 = 0 then 0
           else (wseq uniformModel (env4s.reachable_states 9 3).sum
             (env4s.L_p * env4s.timestep) 7).getD
               (componentIndex (env4s.reachable_states 9 3) k) 0)) ∧
      (∀ k k2 : ℕ, k < env4s.nS → k2 < env4s.nS →
        (env4s.reachable_states 9 3).getD k 0 ≠ 0 →
        (env4s.reachable_states 9 3).getD k2 0 ≠ 0 →
        componentIndex (env4s.reachable_states 9 3) k =
          componentIndex (env4s.reachable_states 9 3) k2 → k = k2) :=
  kernel_row_fixed_component_map env4s uniformModel uniformModel_spec 9 3 7
    (by decide) (by decide) (by decide) (by decide) (by decide) (by decide)
    (by decide)

/-- Claim C7, counterexample to the claim as stated: on the 4x4 environment
the first loop iteration neither prints the reachable-state vector nor
reaches the `exit()` call — line 203 dies first, so the printed log is empty
and the outcome is not `SystemExit`. -/
theorem generate_transition_matrix_c7_counterexample :
    ¬(((generate_transition_matrix_lit env4).1 ≠ []) ∧
      (generate_transition_matrix_lit env4).2 = Except.error PyErr.systemExit) :=
  fun h => h.1 rfl

/-- Claim C7 as amended: `generate_transition_matrix` never returns
normally.  For every environment with at least one state, the very first
loop iteration calls `self.reachable_states(i, j)` with the integer loop
index `i`, whose `s.index` attribute access (line 187) raises
`AttributeError` before the `print` of line 204, before the `exit()` of
line 205 and before any kernel entry is assigned — so kernel construction,
and environment construction which calls it, is non-functional as shipped. -/
theorem generate_transition_matrix_never_returns (e : Env) (hS : 1 ≤ e.nS) :
    generate_transition_matrix_lit e =
      ([], Except.error (PyErr.attributeError (("int", "index")))) := by
  obtain ⟨m, hm⟩ : ∃ m, e.nS = m + 1 := ⟨e.nS - 1, by omega⟩
  unfold generate_transition_matrix_lit
  rw [hm, List.range_succ_eq_map]
  rfl

/-- Witness for the amended C7 theorem at a concrete input. -/
theorem generate_transition_matrix_never_returns_witness :
    generate_transition_matrix_lit env4 =
      ([], Except.error (PyErr.attributeError (("int", "index")))) :=
  generate_transition_matrix_never_returns env4 (by decide)

/-- Claim C8: for every argument combination, in range or not,
`transition_probability_distribution` and `transition_probability` raise
`NameError` on the unbound module name `get_position` before any assertion
check or kernel indexing, and `transition` and `reward`, which call
`transition_probability_distribution` first, never return normally on any
input. -/
theorem get_position_unbound_all_calls_fail :
    ∀ (e : Env) (T : ℤ → ℤ → ℤ → List ℚ) (u : ℚ) (s_p s t a : ℤ) (imd : Bool),
      e.transition_probability_distribution T s t a =
        Except.error (PyErr.nameError gp_name) ∧
      e.transition_probability T s_p s t a =
        Except.error (PyErr.nameError gp_name) ∧
      e.transition T u (s, t) a imd = Except.error (PyErr.nameError gp_name) ∧
      e.reward T s t a = Except.error (PyErr.nameError gp_name) :=
  fun _ _ _ _ _ _ _ _ => ⟨rfl, rfl, rfl, rfl⟩

/-- Claim C4 (the code at the failing input): on the 4x4 non-slippery map,
`transition((0, 0), Right, True)` does not return the documented
(state, reward, done) triple — it raises `NameError` through
`transition_probability_distribution`. -/
theorem transition_raises_instead_of_returning :
    env4.transition T0 (1 / 2) ((0 : ℤ), (0 : ℤ)) 2 true =
      Except.error (PyErr.nameError gp_name) := rfl

/-- Claim C5 (the code at the failing input): the end-to-end 4x4 scenario
cannot start — building the kernel raises `AttributeError` inside
`generate_transition_matrix`, and the first step of the walk,
`transition((0, 0), Down, True)`, raises `NameError`. -/
theorem scenario_first_step_unreachable :
    (generate_transition_matrix_lit env4).2 =
      Except.error (PyErr.attributeError (("int", "index"))) ∧
    env4.transition T0 (1 / 2) ((0 : ℤ), (0 : ℤ)) 1 true =
      Except.error (PyErr.nameError gp_name) := ⟨rfl, rfl⟩
